import Mathlib

/-
Shallow embedding of the MVCC key-value store (package `internal/db`:
`store.go`, `tx.go`) for a sequential (single-threaded) execution model.

Modelling conventions:
- `transactionID` is a `Nat`; `noSuchTransaction = 0` is the sentinel.
- A `recordVersion` carries its value and the two atomic stamps; the
  `next` pointer of the Go struct is represented by list order: a key's
  version chain (`versionedRecord`) is a `List recordVersion`, newest
  first, so `head.next` is the head of the tail.
- The sharded map collapses to a single association list from keys to
  chains: shard selection only partitions the key space and every claim
  under study is per-key.
- A compare-and-swap on the chain head succeeds exactly when the expected
  version is the current head; in a single-threaded run this is decided
  by whether the walk has skipped any versions before the CAS attempt.
- Context cancellation is modelled by a list of outcomes for successive
  lock acquisitions: `tryLockUntil` pops the next outcome, and an empty
  list means acquisition always succeeds (the `context.Background()`
  used during finalization).
-/

namespace MVCC

/-- Database keys (Go `Key []byte`); bytes as naturals, equality byte-wise. -/
abbrev Key := List Nat

/-- Record values (Go `Value []byte`). -/
abbrev Value := List Nat

/-- Go `noSuchTransaction transactionID = 0`, the reserved sentinel. -/
def noSuchTransaction : Nat := 0

/-- One history entry for a key (Go `recordVersion` in the version chain
file): a value payload plus the two atomic validity stamps. The `next`
pointer is the position in the enclosing list. -/
structure recordVersion where
  value : Value
  validAsOfTransaction : Nat
  validBeforeTransaction : Nat
deriving DecidableEq, Repr

/-- A key's version chain, newest first (Go `versionedRecord.newest`
followed by the `next` pointers). -/
abbrev versionChain := List recordVersion

/-- The store's key-to-chain mapping (Go `recordsByKey` across all
shards), as an association list in insertion order. -/
abbrev Store := List (Key × versionChain)

/-- Map lookup, `rm.recordsByKey[string(k)]`. -/
def findRecord : Store → Key → Option versionChain
  | [], _ => none
  | (k', c) :: rest, k => if k' = k then some c else findRecord rest k

/-- Replace the chain stored for a key, or add a binding when the key is
absent (the latter is `rm.recordsByKey[string(k)] = &proposedRecord`). -/
def setRecord : Store → Key → versionChain → Store
  | [], k, c => [(k, c)]
  | (k', c') :: rest, k, c =>
    if k' = k then (k, c) :: rest else (k', c') :: setRecord rest k c

/-- Go `shardedStoreTransaction`: the transaction ID plus the
pending-write set (Go `pendingWrites map[string]struct{}`). -/
structure Txn where
  id : Nat
  pendingWrites : List Key
deriving DecidableEq, Repr

/-- Go `hasPendingWriteAgainst`. -/
def Txn.hasPendingWriteAgainst (t : Txn) (k : Key) : Bool :=
  t.pendingWrites.contains k

/-- Go `notePendingWriteAgainst`: add the key unless already present. -/
def Txn.notePendingWriteAgainst (t : Txn) (k : Key) : Txn :=
  if t.pendingWrites.contains k then t
  else { t with pendingWrites := k :: t.pendingWrites }

/-- Outcomes of the successive shard-lock acquisitions an operation will
attempt; `[]` stands for a context that is never cancelled. -/
abbrev Ctx := List Bool

/-- Pop the outcome of the next lock acquisition (Go `TryRLockUntil` /
`TryLockUntil`); an exhausted list means success. -/
def tryLockUntil : Ctx → Bool × Ctx
  | [] => (true, [])
  | b :: rest => (b, rest)

/-- The error values of the `db` package. The three key-carrying kinds
are the value-typed `recordExistsError`, `recordDoesNotExistError` and
`transactionInConflictError`; the three sentinels are the package-level
`errors.New` variables; `corruptedPendingVersion` stands for the
`fmt.Errorf` about an unexpected validity horizon on a pending version;
`cancelled` is the non-nil `ctx.Err()` after a cancelled acquisition. -/
inductive GoError where
  | sentinelRecordExists
  | sentinelRecordDoesNotExist
  | sentinelTransactionInConflict
  | recordExists (k : Key)
  | recordDoesNotExist (k : Key)
  | transactionInConflict (k : Key)
  | corruptedPendingVersion (txid : Nat) (k : Key) (validBefore : Nat)
  | cancelled
deriving DecidableEq, Repr

/-- The `Is` methods of the three key-carrying error types. Each returns
true when the target is its kind's sentinel. The second arm of each Go
method type-asserts the target to a POINTER type (`*recordExistsError`
etc.); the package only ever creates these errors as values (plain
conversions like `recordExistsError(k)`), so that assertion fails for
every error the store returns and the arm contributes nothing here.
Errors without an `Is` method (sentinels, `fmt.Errorf`, `ctx.Err()`)
yield false. -/
def errImplIs : GoError → GoError → Bool
  | .recordExists _, .sentinelRecordExists => true
  | .recordDoesNotExist _, .sentinelRecordDoesNotExist => true
  | .transactionInConflict _, .sentinelTransactionInConflict => true
  | _, _ => false

/-- Go `errors.Is(err, target)` restricted to this package's errors:
none of them wraps another, so the check is comparable equality followed
by the `Is` method of the error's dynamic type. -/
def errorsIs (err target : GoError) : Bool :=
  (err == target) || errImplIs err target

/-- The kinds of key-carrying errors (spec section 7). -/
inductive keyedErrorKind where
  | existsKind
  | doesNotExistKind
  | conflictKind
deriving DecidableEq, Repr

/-- Construct the key-carrying error of a given kind, as the operations
of `store.go` do. -/
def mkKeyedError : keyedErrorKind → Key → GoError
  | .existsKind, k => .recordExists k
  | .doesNotExistKind, k => .recordDoesNotExist k
  | .conflictKind, k => .transactionInConflict k

/-- The sentinel (`ErrRecordExists` etc.) matching a keyed kind. -/
def sentinelFor : keyedErrorKind → GoError
  | .existsKind => .sentinelRecordExists
  | .doesNotExistKind => .sentinelRecordDoesNotExist
  | .conflictKind => .sentinelTransactionInConflict

/-- The chain walk of `shardedStoreTransaction.Get` (store.go:139-162),
for a transaction with ID `t` where `ours` records
`hasPendingWriteAgainst(k)`. Returns the value when the walk returns a
version's value, `none` both when the walk breaks and when it exhausts
the chain. -/
def getWalk (t : Nat) (ours : Bool) : versionChain → Option Value
  | [] => none
  | r :: rest =>
    if r.validAsOfTransaction = noSuchTransaction then
      if !ours then getWalk t ours rest
      else if r.validBeforeTransaction = noSuchTransaction then some r.value
      else if r.validBeforeTransaction ≤ t then none
      else getWalk t ours rest
    else if r.validAsOfTransaction ≤ t then
      if r.validBeforeTransaction = noSuchTransaction ∨ t < r.validBeforeTransaction
      then some r.value
      else none
    else getWalk t ours rest

/-- Go `shardedStoreTransaction.Get`. -/
def txGet (ctx : Ctx) (st : Store) (tx : Txn) (k : Key) : Except GoError Value :=
  let (acquired, _) := tryLockUntil ctx
  if !acquired then .error .cancelled
  else
    match findRecord st k with
    | none => .error (.recordDoesNotExist k)
    | some c =>
      match getWalk tx.id (tx.hasPendingWriteAgainst k) c with
      | some v => .ok v
      | none => .error (.recordDoesNotExist k)

/-- Result of a mutating operation: the returned error (`none` = nil),
the store and transaction afterwards, and the remaining acquisition
outcomes. -/
structure OpResult where
  err : Option GoError
  store : Store
  tx : Txn
  ctx : Ctx
deriving DecidableEq, Repr

/-- The `useExistingRecord` closure of `Insert` (store.go:171-238).
`skippedRev` holds, newest first reversed, the versions the walk has
already passed; the source's `sawNewerVersion` boolean is true exactly
when `skippedRev` is nonempty, because the walk's only `continue` is the
`validAsOf > t` arm that sets it. A head CAS
(`tryInsertPlaceholderVersion`) succeeds in a single-threaded run
exactly when the expected version is the current head, i.e. when
`skippedRev` is empty. Returns the error, the key's new chain, and the
transaction (with the key noted as pending on success). -/
def useExistingRecord (t : Nat) (tx : Txn) (k : Key) (v : Value) :
    List recordVersion → versionChain → Option GoError × versionChain × Txn
  | skippedRev, [] =>
    if !skippedRev.isEmpty then
      (some (.transactionInConflict k), skippedRev.reverse, tx)
    else
      -- tryInsertPlaceholderVersion(nil): the chain is empty, so the CAS
      -- against a nil head succeeds.
      (none, [⟨v, noSuchTransaction, noSuchTransaction⟩], tx.notePendingWriteAgainst k)
  | skippedRev, r :: rest =>
    if r.validAsOfTransaction = noSuchTransaction then
      if !(tx.hasPendingWriteAgainst k) then
        (some (.transactionInConflict k), skippedRev.reverse ++ r :: rest, tx)
      else if r.validBeforeTransaction = noSuchTransaction then
        (some (.recordExists k), skippedRev.reverse ++ r :: rest, tx)
      else if r.validBeforeTransaction = t then
        -- Resurrect our own tombstone: copy the value in and clear the
        -- validity horizon, in place.
        (none,
         skippedRev.reverse ++
           { r with value := v, validBeforeTransaction := noSuchTransaction } :: rest,
         tx)
      else
        (some (.corruptedPendingVersion t k r.validBeforeTransaction),
         skippedRev.reverse ++ r :: rest, tx)
    else if t < r.validAsOfTransaction then
      useExistingRecord t tx k v (r :: skippedRev) rest
    else
      if r.validBeforeTransaction = noSuchTransaction then
        (some (.recordExists k), skippedRev.reverse ++ r :: rest, tx)
      else if r.validBeforeTransaction ≤ t then
        if !skippedRev.isEmpty then
          (some (.transactionInConflict k), skippedRev.reverse ++ r :: rest, tx)
        else
          -- tryInsertPlaceholderVersion(r): nothing was skipped, so `r`
          -- is the chain head and the CAS succeeds.
          (none, ⟨v, noSuchTransaction, noSuchTransaction⟩ :: r :: rest,
           tx.notePendingWriteAgainst k)
      else
        (some (.recordExists k), skippedRev.reverse ++ r :: rest, tx)

/-- The slow path of `Insert` (store.go:243-259): acquire the shard lock
exclusively, re-check presence, and either reuse the record another
writer published meanwhile or publish a fresh one. `stRecheck` is the
store as observed under the exclusive lock; the sequential `txInsert`
passes the unchanged store here. -/
def insertSlowPath (ctx : Ctx) (stRecheck : Store) (tx : Txn) (k : Key) (v : Value) :
    OpResult :=
  let (acquired, ctx') := tryLockUntil ctx
  if !acquired then ⟨some .cancelled, stRecheck, tx, ctx'⟩
  else
    match findRecord stRecheck k with
    | some c =>
      let (e, c', tx') := useExistingRecord tx.id tx k v [] c
      ⟨e, setRecord stRecheck k c', tx', ctx'⟩
    | none =>
      ⟨none, setRecord stRecheck k [⟨v, noSuchTransaction, noSuchTransaction⟩],
       tx.notePendingWriteAgainst k, ctx'⟩

/-- Go `shardedStoreTransaction.Insert`. -/
def txInsert (ctx : Ctx) (st : Store) (tx : Txn) (k : Key) (v : Value) : OpResult :=
  let (acquired, ctx') := tryLockUntil ctx
  if !acquired then ⟨some .cancelled, st, tx, ctx'⟩
  else
    match findRecord st k with
    | some c =>
      let (e, c', tx') := useExistingRecord tx.id tx k v [] c
      ⟨e, setRecord st k c', tx', ctx'⟩
    | none => insertSlowPath ctx' st tx k v

/-- Go `shardedStoreTransaction.Update` (store.go:262-331). Only the
current head is inspected; the head CAS of `proposeUpdate` succeeds in a
single-threaded run because the loaded head is still the head. -/
def txUpdate (ctx : Ctx) (st : Store) (tx : Txn) (k : Key) (v : Value) : OpResult :=
  let (acquired, ctx') := tryLockUntil ctx
  if !acquired then ⟨some .cancelled, st, tx, ctx'⟩
  else
    match findRecord st k with
    | none => ⟨some (.recordDoesNotExist k), st, tx, ctx'⟩
    | some [] => ⟨some (.recordDoesNotExist k), st, tx, ctx'⟩
    | some (r :: rest) =>
      if r.validAsOfTransaction = noSuchTransaction then
        if !(tx.hasPendingWriteAgainst k) then
          ⟨some (.transactionInConflict k), st, tx, ctx'⟩
        else if r.validBeforeTransaction = noSuchTransaction then
          ⟨none, setRecord st k ({ r with value := v } :: rest), tx, ctx'⟩
        else if r.validBeforeTransaction ≤ tx.id then
          ⟨some (.recordDoesNotExist k), st, tx, ctx'⟩
        else
          ⟨some (.corruptedPendingVersion tx.id k r.validBeforeTransaction), st, tx, ctx'⟩
      else if r.validAsOfTransaction ≤ tx.id then
        if r.validBeforeTransaction = noSuchTransaction then
          ⟨none,
           setRecord st k (⟨v, noSuchTransaction, noSuchTransaction⟩ :: r :: rest),
           tx.notePendingWriteAgainst k, ctx'⟩
        else if r.validBeforeTransaction ≤ tx.id then
          ⟨some (.recordDoesNotExist k), st, tx, ctx'⟩
        else
          ⟨some (.transactionInConflict k), st, tx, ctx'⟩
      else
        ⟨some (.transactionInConflict k), st, tx, ctx'⟩

/-- Result of `Delete`: the `(error, removed)` pair plus the state. -/
structure DelResult where
  err : Option GoError
  removed : Bool
  store : Store
  tx : Txn
  ctx : Ctx
deriving DecidableEq, Repr

/-- Go `shardedStoreTransaction.Delete` (store.go:354-424). The
tombstone it prepends over a committed head copies that head's value and
carries `validBefore = t` while still pending. -/
def txDelete (ctx : Ctx) (st : Store) (tx : Txn) (k : Key) : DelResult :=
  let (acquired, ctx') := tryLockUntil ctx
  if !acquired then ⟨some .cancelled, false, st, tx, ctx'⟩
  else
    match findRecord st k with
    | none => ⟨none, false, st, tx, ctx'⟩
    | some [] => ⟨none, false, st, tx, ctx'⟩
    | some (r :: rest) =>
      if r.validAsOfTransaction = noSuchTransaction then
        if !(tx.hasPendingWriteAgainst k) then
          ⟨some (.transactionInConflict k), false, st, tx, ctx'⟩
        else if r.validBeforeTransaction = noSuchTransaction then
          ⟨none, true,
           setRecord st k ({ r with validBeforeTransaction := tx.id } :: rest), tx, ctx'⟩
        else if r.validBeforeTransaction ≤ tx.id then
          ⟨none, false, st, tx, ctx'⟩
        else
          ⟨some (.corruptedPendingVersion tx.id k r.validBeforeTransaction),
           false, st, tx, ctx'⟩
      else if r.validAsOfTransaction ≤ tx.id then
        if r.validBeforeTransaction = noSuchTransaction then
          ⟨none, true,
           setRecord st k (⟨r.value, noSuchTransaction, tx.id⟩ :: r :: rest),
           tx.notePendingWriteAgainst k, ctx'⟩
        else if r.validBeforeTransaction ≤ tx.id then
          ⟨none, false, st, tx, ctx'⟩
        else
          ⟨some (.transactionInConflict k), false, st, tx, ctx'⟩
      else
        ⟨some (.transactionInConflict k), false, st, tx, ctx'⟩

/-- Go `shardedStoreTransaction.Upsert` (store.go:333-352), with the
retry loop bounded by explicit fuel: the `continue` arm (Insert said the
record exists right after Update said it does not) recurses on smaller
fuel, and exhausted fuel yields `none`. `upsertGo_no_retry` below shows
the recursion is never taken in a single-threaded run, so any positive
fuel computes the operation. -/
def upsertGo : Nat → Ctx → Store → Txn → Key → Value → Option OpResult
  | 0, _, _, _, _, _ => none
  | fuel + 1, ctx, st, tx, k, v =>
    let u := txUpdate ctx st tx k v
    match u.err with
    | none => some u
    | some e =>
      if errorsIs e .sentinelRecordDoesNotExist then
        let i := txInsert u.ctx u.store u.tx k v
        match i.err with
        | none => some i
        | some e2 =>
          if errorsIs e2 .sentinelRecordExists then
            upsertGo fuel i.ctx i.store i.tx k v
          else some i
      else some u

/-- Commit finalization of one key's chain (store.go:481-496): while the
head is pending, either collapse a tombstone into its predecessor or
stamp the pending version's `valid_as_of`. The predecessor's
`valid_before` CAS from `NO_TX` to `t` is attempted whenever a
predecessor exists, before the tombstone test. In a single-threaded run
each CAS outcome is decided by the stamp values, so the loop finishes in
one iteration. -/
def commitFinalizeChain (t : Nat) : versionChain → versionChain
  | [] => []
  | newest :: rest =>
    if newest.validAsOfTransaction ≠ noSuchTransaction then newest :: rest
    else
      match rest with
      | prev :: rest' =>
        if prev.validBeforeTransaction = noSuchTransaction then
          if newest.validBeforeTransaction ≠ noSuchTransaction then
            -- Collapse: the head is our tombstone; replace it with the
            -- now-bounded predecessor.
            { prev with validBeforeTransaction := t } :: rest'
          else
            -- The predecessor's horizon was advanced, then the pending
            -- head is stamped.
            { newest with validAsOfTransaction := t } ::
              { prev with validBeforeTransaction := t } :: rest'
        else
          { newest with validAsOfTransaction := t } :: prev :: rest'
      | [] => [{ newest with validAsOfTransaction := t }]

/-- Abort finalization of one key's chain (store.go:504-510): unlink the
pending head, if any. -/
def abortFinalizeChain : versionChain → versionChain
  | [] => []
  | newest :: rest =>
    if newest.validAsOfTransaction = noSuchTransaction then rest else newest :: rest

/-- The commit path of `WithinTransaction` (store.go:475-497): finalize
every key of the pending-write set under an uncancellable context,
skipping keys with no record. -/
def finalizeCommit (t : Nat) (keys : List Key) (st : Store) : Store :=
  keys.foldl
    (fun s k =>
      match findRecord s k with
      | none => s
      | some c => setRecord s k (commitFinalizeChain t c))
    st

/-- The abort path of `WithinTransaction` (store.go:498-512). -/
def finalizeAbort (keys : List Key) (st : Store) : Store :=
  keys.foldl
    (fun s k =>
      match findRecord s k with
      | none => s
      | some c => setRecord s k (abortFinalizeChain c))
    st

/-
Spec-side definitions for the refinement claim C1, modelled from the
claim's words rather than from the source, to be compared with `txGet`.
-/

/-- Modelled from the claim: a version is visible to transaction `t` iff
`valid_as_of ≤ t` and (`valid_before = NO_TX` or `valid_before > t`),
where a pending version (`valid_as_of = NO_TX`) is visible only when the
key is in `t`'s own pending-write set and that version's `valid_before`
is `NO_TX`. -/
def claimVisible (t : Nat) (ours : Bool) (r : recordVersion) : Bool :=
  if r.validAsOfTransaction = noSuchTransaction then
    ours && r.validBeforeTransaction = noSuchTransaction
  else
    decide (r.validAsOfTransaction ≤ t) &&
      (r.validBeforeTransaction = noSuchTransaction ||
        decide (t < r.validBeforeTransaction))

/-- Modelled from the claim: the transaction's own pending tombstone —
a pending version of a key in its pending-write set whose
`valid_before` is set and at most `t` — at which Get stops with
`RecordDoesNotExist`. -/
def claimOwnTombstone (t : Nat) (ours : Bool) (r : recordVersion) : Bool :=
  (r.validAsOfTransaction = noSuchTransaction) && ours &&
    !(r.validBeforeTransaction = noSuchTransaction) &&
    decide (r.validBeforeTransaction ≤ t)

/-- Modelled from the claim: walk the chain newest first and return the
value of the newest visible version; return nothing when the
transaction's own pending tombstone is reached or no version is
visible. -/
def claimGetWalk (t : Nat) (ours : Bool) : versionChain → Option Value
  | [] => none
  | r :: rest =>
    if claimOwnTombstone t ours r then none
    else if claimVisible t ours r then some r.value
    else claimGetWalk t ours rest

/-- Modelled from the claim: Get under the snapshot rule, including
`RecordDoesNotExist` for an absent record. -/
def claimGet (st : Store) (tx : Txn) (k : Key) : Except GoError Value :=
  match findRecord st k with
  | none => .error (.recordDoesNotExist k)
  | some c =>
    match claimGetWalk tx.id (tx.hasPendingWriteAgainst k) c with
    | some v => .ok v
    | none => .error (.recordDoesNotExist k)

/-- The per-chain reachability invariant relating adjacent versions
(newer first): every version below another is committed, and below a
committed version its stamps are bounded by the newer one's
`valid_as_of`, with `valid_as_of ≤ valid_before`. Established by the
operations and finalization paths of `store.go`. -/
def chainStep (newer older : recordVersion) : Prop :=
  0 < older.validAsOfTransaction ∧
    (0 < newer.validAsOfTransaction →
      0 < older.validBeforeTransaction ∧
        older.validAsOfTransaction ≤ older.validBeforeTransaction ∧
        older.validBeforeTransaction ≤ newer.validAsOfTransaction)

instance (newer older : recordVersion) : Decidable (chainStep newer older) :=
  inferInstanceAs (Decidable (0 < older.validAsOfTransaction ∧
    (0 < newer.validAsOfTransaction →
      0 < older.validBeforeTransaction ∧
        older.validAsOfTransaction ≤ older.validBeforeTransaction ∧
        older.validBeforeTransaction ≤ newer.validAsOfTransaction)))

/-- Well-formedness of a chain: adjacent versions satisfy `chainStep`. -/
def wfChain : versionChain → Prop
  | [] => True
  | [_] => True
  | newer :: older :: rest => chainStep newer older ∧ wfChain (older :: rest)

instance wfChainDecidable : (c : versionChain) → Decidable (wfChain c)
  | [] => isTrue trivial
  | [_] => isTrue trivial
  | _ :: b :: rest =>
    @instDecidableAnd _ _ _ (wfChainDecidable (b :: rest))

theorem wfChain_tail : ∀ {r : recordVersion} {rest : versionChain},
    wfChain (r :: rest) → wfChain rest
  | _, [], _ => trivial
  | _, _ :: _, h => h.2

/-- Well-formedness of an optional chain. -/
def wfChainO : Option versionChain → Prop
  | none => True
  | some c => wfChain c

instance : (o : Option versionChain) → Decidable (wfChainO o)
  | none => isTrue trivial
  | some c => inferInstanceAs (Decidable (wfChain c))

/-- Well-formedness of whatever the store holds for a key. -/
def wfRecordAt (st : Store) (k : Key) : Prop :=
  wfChainO (findRecord st k)

instance (st : Store) (k : Key) : Decidable (wfRecordAt st k) :=
  inferInstanceAs (Decidable (wfChainO (findRecord st k)))

/-- Go slice of bytes: the backing array from the slice's start through
its capacity, plus the slice length (`len ≤ backing.length = cap`). -/
structure GoSlice where
  backing : List Nat
  len : Nat
deriving DecidableEq, Repr

/-- The visible bytes of a slice. -/
def goSliceBytes (s : GoSlice) : List Nat := s.backing.take s.len

/-- Go `copy(dst, v)` where `dst` has length `v.length`: overwrite the
first `v.length` cells of the backing array. -/
def overwriteBytes (arr v : List Nat) : List Nat := v ++ arr.drop v.length

/-- Go `copyInto` (tx.go:60-68): allocate a fresh backing array when the
capacity is insufficient, otherwise reslice to the source length; then
copy. Returns the new slice, `copy`'s return value, and whether a new
backing array was allocated. -/
def copyInto (dst : GoSlice) (v : List Nat) : GoSlice × Nat × Bool :=
  if dst.backing.length < v.length then
    (⟨overwriteBytes (List.replicate v.length 0) v, v.length⟩, v.length, true)
  else
    (⟨overwriteBytes dst.backing v, v.length⟩, v.length, false)

/-
Helper lemmas about the store map and finalization folds.
-/

theorem findRecord_setRecord_self (st : Store) (k : Key) (c : versionChain) :
    findRecord (setRecord st k c) k = some c := by
  induction st with
  | nil => simp [setRecord, findRecord]
  | cons p rest ih =>
    obtain ⟨k', c'⟩ := p
    by_cases h : k' = k
    · simp [setRecord, findRecord, h]
    · simp [setRecord, findRecord, h, ih]

theorem findRecord_setRecord_other (st : Store) (k k' : Key) (c : versionChain)
    (h : k' ≠ k) : findRecord (setRecord st k c) k' = findRecord st k' := by
  induction st with
  | nil =>
    simp only [setRecord, findRecord]
    rw [if_neg (fun hh : k = k' => h hh.symm)]
  | cons p rest ih =>
    obtain ⟨k0, c0⟩ := p
    by_cases h0 : k0 = k
    · subst h0
      simp only [setRecord, if_pos rfl, findRecord]
      rw [if_neg (fun hh : k0 = k' => h hh.symm), if_neg (fun hh : k0 = k' => h hh.symm)]
    · simp only [setRecord, if_neg h0, findRecord]
      by_cases h1 : k0 = k'
      · rw [if_pos h1, if_pos h1]
      · rw [if_neg h1, if_neg h1, ih]

theorem setRecord_findRecord_self (st : Store) (k : Key) (c : versionChain)
    (h : findRecord st k = some c) : setRecord st k c = st := by
  induction st with
  | nil => simp [findRecord] at h
  | cons p rest ih =>
    obtain ⟨k0, c0⟩ := p
    by_cases h0 : k0 = k
    · subst h0
      simp [findRecord] at h
      simp [setRecord, h]
    · simp [findRecord, h0] at h
      simp [setRecord, h0, ih h]

theorem findRecord_mem (st : Store) (k : Key) (c : versionChain)
    (h : findRecord st k = some c) : (k, c) ∈ st := by
  induction st with
  | nil => simp [findRecord] at h
  | cons p rest ih =>
    obtain ⟨k0, c0⟩ := p
    by_cases h0 : k0 = k
    · subst h0
      simp [findRecord] at h
      simp [h]
    · simp [findRecord, h0] at h
      exact List.mem_cons_of_mem _ (ih h)

/-- One step of the commit-finalization fold. -/
def commitStep (t : Nat) (s : Store) (k : Key) : Store :=
  match findRecord s k with
  | none => s
  | some c => setRecord s k (commitFinalizeChain t c)

/-- One step of the abort-finalization fold. -/
def abortStep (s : Store) (k : Key) : Store :=
  match findRecord s k with
  | none => s
  | some c => setRecord s k (abortFinalizeChain c)

theorem finalizeCommit_eq_foldl (t : Nat) (keys : List Key) (st : Store) :
    finalizeCommit t keys st = keys.foldl (commitStep t) st := by
  unfold finalizeCommit commitStep
  rfl

theorem finalizeAbort_eq_foldl (keys : List Key) (st : Store) :
    finalizeAbort keys st = keys.foldl abortStep st := by
  unfold finalizeAbort abortStep
  rfl

theorem commitStep_find_other (t : Nat) (s : Store) (k0 k : Key) (h : k0 ≠ k) :
    findRecord (commitStep t s k0) k = findRecord s k := by
  unfold commitStep
  cases hf : findRecord s k0 with
  | none => rfl
  | some c0 => exact findRecord_setRecord_other _ _ _ _ (fun hh => h hh.symm)

theorem abortStep_find_other (s : Store) (k0 k : Key) (h : k0 ≠ k) :
    findRecord (abortStep s k0) k = findRecord s k := by
  unfold abortStep
  cases hf : findRecord s k0 with
  | none => rfl
  | some c0 => exact findRecord_setRecord_other _ _ _ _ (fun hh => h hh.symm)

theorem finalizeCommit_find_none (t : Nat) (keys : List Key) (st : Store) (k : Key)
    (h : findRecord st k = none) : findRecord (finalizeCommit t keys st) k = none := by
  rw [finalizeCommit_eq_foldl]
  induction keys generalizing st with
  | nil => simpa
  | cons k0 rest ih =>
    rw [List.foldl_cons]
    apply ih
    by_cases h0 : k0 = k
    · subst h0
      unfold commitStep
      rw [h]
      exact h
    · rw [commitStep_find_other _ _ _ _ h0]
      exact h

theorem finalizeCommit_find_not_mem (t : Nat) (keys : List Key) (st : Store) (k : Key)
    (h : k ∉ keys) : findRecord (finalizeCommit t keys st) k = findRecord st k := by
  rw [finalizeCommit_eq_foldl]
  induction keys generalizing st with
  | nil => simp
  | cons k0 rest ih =>
    rw [List.foldl_cons]
    have hne : k ∉ rest := fun hh => h (List.mem_cons_of_mem _ hh)
    have h0 : k0 ≠ k := fun hh => h (hh ▸ List.mem_cons_self k0 rest)
    rw [ih _ hne, commitStep_find_other _ _ _ _ h0]

theorem finalizeCommit_find_of_fixed (t : Nat) (keys : List Key) (st : Store) (k : Key)
    (c : versionChain) (hc : findRecord st k = some c)
    (hfix : commitFinalizeChain t (commitFinalizeChain t c) = commitFinalizeChain t c) :
    findRecord (finalizeCommit t keys st) k =
      some (if k ∈ keys then commitFinalizeChain t c else c) := by
  rw [finalizeCommit_eq_foldl]
  induction keys generalizing st c with
  | nil => simpa
  | cons k0 rest ih =>
    rw [List.foldl_cons]
    by_cases h0 : k0 = k
    · subst h0
      have hstep : findRecord (commitStep t st k0) k0 = some (commitFinalizeChain t c) := by
        unfold commitStep
        rw [hc]
        exact findRecord_setRecord_self _ _ _
      rw [ih _ _ hstep (by rw [hfix, hfix])]
      by_cases hmem : k0 ∈ rest <;> simp [hmem, hfix]
    · have hstep : findRecord (commitStep t st k0) k = some c := by
        rw [commitStep_find_other _ _ _ _ h0]
        exact hc
      rw [ih _ _ hstep hfix]
      have hne : ¬k = k0 := fun hh => h0 hh.symm
      by_cases hmem : k ∈ rest <;> simp [hmem, List.mem_cons, hne]

theorem abortFinalizeChain_suffix (c : versionChain) :
    abortFinalizeChain c <:+ c := by
  cases c with
  | nil => exact List.suffix_refl _
  | cons r rest =>
    rw [abortFinalizeChain]
    by_cases h : r.validAsOfTransaction = noSuchTransaction
    · rw [if_pos h]
      exact List.suffix_cons r rest
    · rw [if_neg h]

theorem finalizeAbort_find_none (keys : List Key) (st : Store) (k : Key)
    (h : findRecord st k = none) : findRecord (finalizeAbort keys st) k = none := by
  rw [finalizeAbort_eq_foldl]
  induction keys generalizing st with
  | nil => simpa
  | cons k0 rest ih =>
    rw [List.foldl_cons]
    apply ih
    by_cases h0 : k0 = k
    · subst h0
      unfold abortStep
      rw [h]
      exact h
    · rw [abortStep_find_other _ _ _ h0]
      exact h

theorem finalizeAbort_find_not_mem (keys : List Key) (st : Store) (k : Key)
    (h : k ∉ keys) : findRecord (finalizeAbort keys st) k = findRecord st k := by
  rw [finalizeAbort_eq_foldl]
  induction keys generalizing st with
  | nil => simp
  | cons k0 rest ih =>
    rw [List.foldl_cons]
    have hne : k ∉ rest := fun hh => h (List.mem_cons_of_mem _ hh)
    have h0 : k0 ≠ k := fun hh => h (hh ▸ List.mem_cons_self k0 rest)
    rw [ih _ hne, abortStep_find_other _ _ _ h0]

theorem finalizeAbort_find_suffix (keys : List Key) (st : Store) (k : Key)
    (c : versionChain) (hc : findRecord st k = some c) :
    ∃ c', findRecord (finalizeAbort keys st) k = some c' ∧ c' <:+ c := by
  rw [finalizeAbort_eq_foldl]
  induction keys generalizing st c with
  | nil => exact ⟨c, by simpa, List.suffix_refl c⟩
  | cons k0 rest ih =>
    rw [List.foldl_cons]
    by_cases h0 : k0 = k
    · subst h0
      have hstep : findRecord (abortStep st k0) k0 = some (abortFinalizeChain c) := by
        unfold abortStep
        rw [hc]
        exact findRecord_setRecord_self _ _ _
      obtain ⟨c', hfind, hsuf⟩ := ih _ _ hstep
      exact ⟨c', hfind, hsuf.trans (abortFinalizeChain_suffix c)⟩
    · have hstep : findRecord (abortStep st k0) k = some c := by
        rw [abortStep_find_other _ _ _ h0]
        exact hc
      exact ih _ _ hstep

theorem finalizeAbort_find_mem (keys : List Key) (st : Store) (k : Key)
    (c : versionChain) (hk : k ∈ keys) (hc : findRecord st k = some c) :
    ∃ c', findRecord (finalizeAbort keys st) k = some c' ∧
      c' <:+ abortFinalizeChain c := by
  induction keys generalizing st c with
  | nil => cases hk
  | cons k0 rest ih =>
    rw [finalizeAbort_eq_foldl, List.foldl_cons, ← finalizeAbort_eq_foldl]
    by_cases h0 : k0 = k
    · subst h0
      have hstep : findRecord (abortStep st k0) k0 = some (abortFinalizeChain c) := by
        unfold abortStep
        rw [hc]
        exact findRecord_setRecord_self _ _ _
      exact finalizeAbort_find_suffix rest (abortStep st k0) k0 _ hstep
    · have hkrest : k ∈ rest := by
        cases hk with
        | head => exact absurd rfl h0
        | tail _ hh => exact hh
      have hstep : findRecord (abortStep st k0) k = some c := by
        rw [abortStep_find_other _ _ _ h0]
        exact hc
      exact ih _ _ hkrest hstep


/-
C1: equivalence of Get's walk with the claim's visibility rule.
-/

theorem claimGetWalk_none_of_bounded (t : Nat) (ours : Bool) :
    ∀ (r : recordVersion) (rest : versionChain),
      wfChain (r :: rest) →
      r.validAsOfTransaction ≠ 0 → r.validAsOfTransaction ≤ t →
      r.validBeforeTransaction ≠ 0 → r.validBeforeTransaction ≤ t →
      claimGetWalk t ours rest = none := by
  intro r rest
  induction rest generalizing r with
  | nil =>
    intro _ _ _ _ _
    rfl
  | cons o rest' ih =>
    intro hch hva hvat hvb hvbt
    have hstep : chainStep r o := hch.1
    have htl : wfChain (o :: rest') := hch.2
    obtain ⟨hova, hrest⟩ := hstep
    obtain ⟨hovb, hovab, hoble⟩ := hrest (Nat.pos_of_ne_zero hva)
    have hova' : o.validAsOfTransaction ≠ 0 := Nat.pos_iff_ne_zero.mp hova
    have hovb' : o.validBeforeTransaction ≠ 0 := Nat.pos_iff_ne_zero.mp hovb
    have hovbt : o.validBeforeTransaction ≤ t := le_trans hoble hvat
    have hovat : o.validAsOfTransaction ≤ t := le_trans hovab hovbt
    rw [claimGetWalk]
    have h1 : claimOwnTombstone t ours o = false := by
      unfold claimOwnTombstone noSuchTransaction
      simp [hova']
    have h2 : claimVisible t ours o = false := by
      unfold claimVisible noSuchTransaction
      simp only [if_neg hova', Bool.and_eq_false_iff]
      right
      simp only [Bool.or_eq_false_iff]
      refine ⟨by simpa using hovb', by simpa using Nat.not_lt.mpr hovbt⟩
    rw [h1, h2]
    simp only [Bool.false_eq_true, if_neg (by simp : ¬False)]
    exact ih o htl hova' hovat hovb' hovbt

theorem getWalk_eq_claimGetWalk (t : Nat) (ours : Bool) :
    ∀ c : versionChain, wfChain c → getWalk t ours c = claimGetWalk t ours c := by
  intro c
  induction c with
  | nil =>
    intro _
    rfl
  | cons r rest ih =>
    intro hwf
    have htl : wfChain rest := wfChain_tail hwf
    rw [getWalk, claimGetWalk]
    by_cases hva : r.validAsOfTransaction = noSuchTransaction
    · rw [if_pos hva]
      cases ours with
      | false =>
        simp only [Bool.not_false, if_pos rfl]
        rw [ih htl]
        have h1 : claimOwnTombstone t false r = false := by
          unfold claimOwnTombstone
          simp
        have h2 : claimVisible t false r = false := by
          unfold claimVisible
          rw [if_pos hva]
          simp
        rw [h1, h2]
        simp
      | true =>
        simp only [Bool.not_true]
        rw [if_neg (by simp)]
        by_cases hvb : r.validBeforeTransaction = noSuchTransaction
        · rw [if_pos hvb]
          have h1 : claimOwnTombstone t true r = false := by
            unfold claimOwnTombstone
            simp [hvb]
          have h2 : claimVisible t true r = true := by
            unfold claimVisible
            rw [if_pos hva]
            simp [hvb]
          rw [h1, h2]
          simp
        · rw [if_neg hvb]
          by_cases hle : r.validBeforeTransaction ≤ t
          · rw [if_pos hle]
            have h1 : claimOwnTombstone t true r = true := by
              unfold claimOwnTombstone
              simp [hva, hvb, hle]
            rw [h1]
            simp
          · rw [if_neg hle]
            have h1 : claimOwnTombstone t true r = false := by
              unfold claimOwnTombstone
              simp [hle]
            have h2 : claimVisible t true r = false := by
              unfold claimVisible
              rw [if_pos hva]
              simp [hvb]
            rw [h1, h2]
            simp [ih htl]
    · rw [if_neg hva]
      have h1 : claimOwnTombstone t ours r = false := by
        unfold claimOwnTombstone
        simp [hva]
      rw [h1]
      simp only [Bool.false_eq_true, if_neg (by simp : ¬False)]
      by_cases hle : r.validAsOfTransaction ≤ t
      · rw [if_pos hle]
        by_cases hvis : r.validBeforeTransaction = noSuchTransaction ∨ t < r.validBeforeTransaction
        · rw [if_pos hvis]
          have h2 : claimVisible t ours r = true := by
            unfold claimVisible
            rw [if_neg hva]
            rcases hvis with h | h <;> simp [h, hle]
          rw [h2]
          simp
        · rw [if_neg hvis]
          push_neg at hvis
          obtain ⟨hvb, hvbt⟩ := hvis
          have h2 : claimVisible t ours r = false := by
            unfold claimVisible
            rw [if_neg hva]
            simp only [Bool.and_eq_false_iff, Bool.or_eq_false_iff]
            right
            refine ⟨by simpa using hvb, by simpa using Nat.not_lt.mpr hvbt⟩
          rw [h2]
          simp only [Bool.false_eq_true, if_neg (by simp : ¬False)]
          exact (claimGetWalk_none_of_bounded t ours r rest hwf hva hle hvb hvbt).symm
      · rw [if_neg hle]
        have h2 : claimVisible t ours r = false := by
          unfold claimVisible
          rw [if_neg hva]
          simp [hle]
        rw [h2]
        simp [ih htl]

/-- C1: for every transaction `t` and key `k` on a well-formed chain,
`Get(k)` returns the value of the newest version visible to `t` under
the snapshot rule — `valid_as_of ≤ t` and (`valid_before = NO_TX` or
`valid_before > t`), a pending version being visible only when `k` is in
`t`'s own pending-write set with `valid_before = NO_TX` — and returns
`RecordDoesNotExist` when no version is visible, including at `t`'s own
pending tombstone (`valid_before ≤ t`) and when the walk exhausts the
chain. -/
theorem c1_get_matches_snapshot_rule (st : Store) (tx : Txn) (k : Key)
    (h : wfRecordAt st k) : txGet [] st tx k = claimGet st tx k := by
  unfold wfRecordAt at h
  unfold txGet claimGet tryLockUntil
  simp only [Bool.not_true, Bool.false_eq_true, if_neg (by simp : ¬False)]
  cases hf : findRecord st k with
  | none => rfl
  | some c =>
    rw [hf] at h
    have hw := getWalk_eq_claimGetWalk tx.id (tx.hasPendingWriteAgainst k) c h
    simp [hw]

/-- C1 witness: the equivalence applied to a concrete two-version chain
(a committed update over a bounded predecessor) for transaction 2. -/
theorem c1_get_matches_snapshot_rule_witness :
    wfRecordAt [([1], [⟨[9], 3, 0⟩, ⟨[7], 1, 3⟩])] [1] ∧
      txGet [] [([1], [⟨[9], 3, 0⟩, ⟨[7], 1, 3⟩])] ⟨2, []⟩ [1] =
        claimGet [([1], [⟨[9], 3, 0⟩, ⟨[7], 1, 3⟩])] ⟨2, []⟩ [1] :=
  ⟨by decide, c1_get_matches_snapshot_rule _ _ _ (by decide)⟩


/-- C8: every key-carrying error (RecordExists, RecordDoesNotExist,
TransactionInConflict) matches its kind's sentinel under `errors.Is`,
and two key-carrying errors compare equal under `errors.Is` exactly when
they are of the same kind and carry the same key. -/
theorem c8_error_matching :
    (∀ (kk : keyedErrorKind) (k : Key),
        errorsIs (mkKeyedError kk k) (sentinelFor kk) = true) ∧
      ∀ (kk1 kk2 : keyedErrorKind) (k1 k2 : Key),
        errorsIs (mkKeyedError kk1 k1) (mkKeyedError kk2 k2) = true ↔
          kk1 = kk2 ∧ k1 = k2 := by
  constructor
  · intro kk k
    cases kk <;> simp [errorsIs, mkKeyedError, sentinelFor, errImplIs]
  · intro kk1 kk2 k1 k2
    cases kk1 <;> cases kk2 <;>
      simp [errorsIs, mkKeyedError, errImplIs]

/-- C9: `copyInto` leaves the destination byte-for-byte equal to the
source, with the source's length, returns that length, allocates a new
backing array exactly when capacity is insufficient, and otherwise
reuses the existing backing array (same capacity, cells past the copied
span preserved). -/
theorem c9_copyInto_copies (dst : GoSlice) (v : List Nat) :
    goSliceBytes (copyInto dst v).1 = v ∧
      (copyInto dst v).1.len = v.length ∧
      (copyInto dst v).2.1 = v.length ∧
      (copyInto dst v).2.2 = decide (dst.backing.length < v.length) ∧
      (v.length ≤ dst.backing.length →
        (copyInto dst v).2.2 = false ∧
        (copyInto dst v).1.backing.length = dst.backing.length ∧
        (copyInto dst v).1.backing.drop v.length = dst.backing.drop v.length) := by
  unfold copyInto goSliceBytes overwriteBytes
  by_cases h : dst.backing.length < v.length
  · rw [if_pos h]
    refine ⟨?_, rfl, rfl, by simp [h], fun hle => absurd h (Nat.not_lt.mpr hle)⟩
    simp [List.take_append]
  · rw [if_neg h]
    push_neg at h
    refine ⟨?_, rfl, rfl, by simpa using Nat.not_lt.mpr h, fun _ => ⟨rfl, ?_, ?_⟩⟩
    · simp [List.take_append]
    · simp
      omega
    · simp

/-- C9 witness: copying `[5, 6]` into a destination of capacity 3 reuses
the backing array. -/
theorem c9_copyInto_copies_witness :
    goSliceBytes (copyInto ⟨[1, 2, 3], 3⟩ [5, 6]).1 = [5, 6] ∧
      (copyInto ⟨[1, 2, 3], 3⟩ [5, 6]).2.2 = false ∧
      (copyInto ⟨[1, 2, 3], 3⟩ [5, 6]).1.backing.length = 3 :=
  ⟨(c9_copyInto_copies ⟨[1, 2, 3], 3⟩ [5, 6]).1,
   ((c9_copyInto_copies ⟨[1, 2, 3], 3⟩ [5, 6]).2.2.2.2 (by decide)).1,
   by decide⟩


/-- C7: when the shard-lock acquisition fails because the cancellation
signal fired — the shared acquisition of any operation, or the exclusive
acquisition on Insert's slow path — the operation returns the
cancellation error and leaves the store and the transaction's
pending-write set unchanged. -/
theorem c7_cancelled_no_mutation (st : Store) (tx : Txn) (k : Key) (v : Value)
    (fuel : Nat) :
    txGet [false] st tx k = .error .cancelled ∧
      txInsert [false] st tx k v = ⟨some .cancelled, st, tx, []⟩ ∧
      (findRecord st k = none →
        txInsert [true, false] st tx k v = ⟨some .cancelled, st, tx, []⟩) ∧
      txUpdate [false] st tx k v = ⟨some .cancelled, st, tx, []⟩ ∧
      upsertGo (fuel + 1) [false] st tx k v = some ⟨some .cancelled, st, tx, []⟩ ∧
      txDelete [false] st tx k = ⟨some .cancelled, false, st, tx, []⟩ := by
  refine ⟨rfl, rfl, ?_, rfl, rfl, rfl⟩
  intro h
  unfold txInsert tryLockUntil
  simp only [Bool.not_true, Bool.false_eq_true, if_neg (by simp : ¬False), h]
  rfl

/-- C7 witness: the slow-path conjunct at the empty store. -/
theorem c7_cancelled_no_mutation_witness :
    findRecord [] [1] = none ∧
      txInsert [true, false] [] ⟨1, []⟩ [1] [2] =
        ⟨some .cancelled, [], ⟨1, []⟩, []⟩ :=
  ⟨by decide, (c7_cancelled_no_mutation [] ⟨1, []⟩ [1] [2] 0).2.2.1 (by decide)⟩

/-- C5: when transaction `t` holds its own pending tombstone at the head
of `k`'s chain (`valid_as_of = NO_TX`, `valid_before = t`, `k` in the
pending-write set), `Insert(k, v)` succeeds by copying `v` into that
pending version in place and clearing its `valid_before` to `NO_TX`, and
a subsequent `Get(k)` in the same transaction returns `v`. -/
theorem c5_insert_resurrects_own_tombstone (st : Store) (tx : Txn) (k : Key)
    (v : Value) (r : recordVersion) (rest : versionChain)
    (h1 : findRecord st k = some (r :: rest))
    (h2 : r.validAsOfTransaction = noSuchTransaction)
    (h3 : r.validBeforeTransaction = tx.id)
    (h4 : tx.hasPendingWriteAgainst k = true)
    (h5 : 0 < tx.id) :
    txInsert [] st tx k v =
      ⟨none,
       setRecord st k
         ({ r with value := v, validBeforeTransaction := noSuchTransaction } :: rest),
       tx, []⟩ ∧
      txGet []
        (setRecord st k
          ({ r with value := v, validBeforeTransaction := noSuchTransaction } :: rest))
        tx k = .ok v := by
  have h6 : tx.id ≠ 0 := Nat.pos_iff_ne_zero.mp h5
  simp only [noSuchTransaction] at h2 h3
  constructor
  · simp [txInsert, tryLockUntil, useExistingRecord, noSuchTransaction,
      h1, h2, h3, h4, h6]
  · simp [txGet, tryLockUntil, findRecord_setRecord_self, getWalk,
      noSuchTransaction, h2, h4]

/-- C5 witness: resurrecting a tombstone left by transaction 4 over a
committed predecessor. -/
theorem c5_insert_resurrects_own_tombstone_witness :
    findRecord [([1], [⟨[7], 0, 4⟩, ⟨[7], 2, 0⟩])] [1] =
        some [⟨[7], 0, 4⟩, ⟨[7], 2, 0⟩] ∧
      txInsert [] [([1], [⟨[7], 0, 4⟩, ⟨[7], 2, 0⟩])] ⟨4, [[1]]⟩ [1] [9] =
        ⟨none, [([1], [⟨[9], 0, 0⟩, ⟨[7], 2, 0⟩])], ⟨4, [[1]]⟩, []⟩ ∧
      txGet [] [([1], [⟨[9], 0, 0⟩, ⟨[7], 2, 0⟩])] ⟨4, [[1]]⟩ [1] = .ok [9] := by
  have h := c5_insert_resurrects_own_tombstone
    [([1], [⟨[7], 0, 4⟩, ⟨[7], 2, 0⟩])] ⟨4, [[1]]⟩ [1] [9]
    ⟨[7], 0, 4⟩ [⟨[7], 2, 0⟩] (by decide) (by decide) (by decide) (by decide) (by decide)
  exact ⟨by decide, by simpa using h.1, by simpa using h.2⟩


/-- C2 counterexample: transaction 1 inserts and commits; transaction 2
updates the key, leaving a pending head with `valid_before = NO_TX` (a
plain update, not a tombstone) over the committed predecessor
`⟨[10], 1, 0⟩`; yet commit finalization of transaction 2 changes that
predecessor's `valid_before` from `NO_TX` to 2 — finalization does not
perform only the stamp transition, refuting the claim. -/
theorem c2_counterexample_predecessor_stamped :
    txInsert [] [] ⟨1, []⟩ [1] [10] =
        ⟨none, [([1], [⟨[10], 0, 0⟩])], ⟨1, [[1]]⟩, []⟩ ∧
      finalizeCommit 1 [[1]] [([1], [⟨[10], 0, 0⟩])] = [([1], [⟨[10], 1, 0⟩])] ∧
      txUpdate [] [([1], [⟨[10], 1, 0⟩])] ⟨2, []⟩ [1] [20] =
        ⟨none, [([1], [⟨[20], 0, 0⟩, ⟨[10], 1, 0⟩])], ⟨2, [[1]]⟩, []⟩ ∧
      finalizeCommit 2 [[1]] [([1], [⟨[20], 0, 0⟩, ⟨[10], 1, 0⟩])] =
        [([1], [⟨[20], 2, 0⟩, ⟨[10], 1, 2⟩])] := by
  decide

/-- C2 amended: finalizing a key whose pending head has
`valid_before = NO_TX` stamps that head's `valid_as_of` to `t` and, when
a predecessor exists whose `valid_before` is `NO_TX`, also advances that
predecessor's `valid_before` to `t`; every deeper version — and a
predecessor whose `valid_before` is already set — is left unchanged. -/
theorem c2_amended_stamp_and_predecessor (t : Nat) (newest : recordVersion)
    (rest : versionChain)
    (h1 : newest.validAsOfTransaction = noSuchTransaction)
    (h2 : newest.validBeforeTransaction = noSuchTransaction) :
    commitFinalizeChain t (newest :: rest) =
      { newest with validAsOfTransaction := t } ::
        match rest with
        | [] => []
        | prev :: rest' =>
          (if prev.validBeforeTransaction = noSuchTransaction
           then { prev with validBeforeTransaction := t } else prev) :: rest' := by
  simp only [noSuchTransaction] at h1 h2
  cases rest with
  | nil => simp [commitFinalizeChain, noSuchTransaction, h1]
  | cons prev rest' =>
    by_cases hp : prev.validBeforeTransaction = 0 <;>
      simp [commitFinalizeChain, noSuchTransaction, h1, h2, hp]

/-- C2 amended witness: a pending update over an unbounded predecessor
and over a bounded one. -/
theorem c2_amended_stamp_and_predecessor_witness :
    (⟨[20], 0, 0⟩ : recordVersion).validAsOfTransaction = noSuchTransaction ∧
      commitFinalizeChain 2 [⟨[20], 0, 0⟩, ⟨[10], 1, 0⟩] =
        [⟨[20], 2, 0⟩, ⟨[10], 1, 2⟩] ∧
      commitFinalizeChain 5 [⟨[9], 0, 0⟩, ⟨[8], 2, 4⟩, ⟨[7], 1, 2⟩] =
        [⟨[9], 5, 0⟩, ⟨[8], 2, 4⟩, ⟨[7], 1, 2⟩] :=
  ⟨rfl,
   by rw [c2_amended_stamp_and_predecessor 2 ⟨[20], 0, 0⟩ [⟨[10], 1, 0⟩] rfl rfl]; decide,
   by rw [c2_amended_stamp_and_predecessor 5 ⟨[9], 0, 0⟩ [⟨[8], 2, 4⟩, ⟨[7], 1, 2⟩] rfl rfl]; decide⟩

/-- The committed versions of a chain (those already stamped with a
`valid_as_of`). -/
def committedVersions (c : versionChain) : versionChain :=
  c.filter (fun r => decide (r.validAsOfTransaction ≠ 0))

theorem useExistingRecord_preserves_committed (t : Nat) (tx : Txn) (k : Key)
    (v : Value) :
    ∀ (c : versionChain) (skippedRev : List recordVersion),
      committedVersions (useExistingRecord t tx k v skippedRev c).2.1 =
        committedVersions (skippedRev.reverse ++ c) := by
  intro c
  induction c with
  | nil =>
    intro skippedRev
    unfold useExistingRecord
    cases hs : skippedRev with
    | nil => simp [committedVersions, noSuchTransaction]
    | cons a l => simp [committedVersions, noSuchTransaction]
  | cons r rest ih =>
    intro skippedRev
    unfold useExistingRecord
    by_cases hva : r.validAsOfTransaction = noSuchTransaction
    · rw [if_pos hva]
      simp only [noSuchTransaction] at hva
      by_cases hours : tx.hasPendingWriteAgainst k
      · rw [if_neg (by simp [hours])]
        by_cases hvb : r.validBeforeTransaction = noSuchTransaction
        · rw [if_pos hvb]
        · rw [if_neg hvb]
          by_cases hvbt : r.validBeforeTransaction = t
          · rw [if_pos hvbt]
            simp [committedVersions, List.filter_append, hva]
          · rw [if_neg hvbt]
      · rw [if_pos (by simp [hours])]
    · rw [if_neg hva]
      by_cases hlt : t < r.validAsOfTransaction
      · rw [if_pos hlt]
        rw [ih (r :: skippedRev)]
        simp
      · rw [if_neg hlt]
        by_cases hvb : r.validBeforeTransaction = noSuchTransaction
        · rw [if_pos hvb]
        · rw [if_neg hvb]
          by_cases hle : r.validBeforeTransaction ≤ t
          · rw [if_pos hle]
            cases hs : skippedRev with
            | nil =>
              simp [committedVersions, noSuchTransaction]
            | cons a l =>
              simp
          · rw [if_neg hle]

/-- C10: when Insert's slow path re-checks under the exclusive shard
lock and finds that a record for the key has appeared, it operates on
that existing record's chain through `useExistingRecord` instead of
publishing a fresh record: the key's committed versions are all
preserved and no other binding of the map changes, so a key's version
chain is never discarded or replaced by a later insert. -/
theorem c10_insert_never_replaces_record (stRecheck : Store) (tx : Txn) (k : Key)
    (v : Value) (c : versionChain) (h : findRecord stRecheck k = some c) :
    insertSlowPath [] stRecheck tx k v =
        ⟨(useExistingRecord tx.id tx k v [] c).1,
         setRecord stRecheck k (useExistingRecord tx.id tx k v [] c).2.1,
         (useExistingRecord tx.id tx k v [] c).2.2, []⟩ ∧
      committedVersions (useExistingRecord tx.id tx k v [] c).2.1 =
        committedVersions c ∧
      ∀ k', k' ≠ k →
        findRecord (insertSlowPath [] stRecheck tx k v).store k' =
          findRecord stRecheck k' := by
  have hmain : insertSlowPath [] stRecheck tx k v =
      ⟨(useExistingRecord tx.id tx k v [] c).1,
       setRecord stRecheck k (useExistingRecord tx.id tx k v [] c).2.1,
       (useExistingRecord tx.id tx k v [] c).2.2, []⟩ := by
    unfold insertSlowPath tryLockUntil
    simp [h]
  refine ⟨hmain, ?_, ?_⟩
  · simpa using useExistingRecord_preserves_committed tx.id tx k v c []
  · intro k' hk'
    rw [hmain]
    exact findRecord_setRecord_other _ _ _ _ hk'

/-- C10 witness: a record for key `[1]` appeared between the read-locked
lookup and the exclusive re-check; the slow path reuses its chain. -/
theorem c10_insert_never_replaces_record_witness :
    findRecord [([1], [⟨[7], 3, 0⟩])] [1] = some [⟨[7], 3, 0⟩] ∧
      insertSlowPath [] [([1], [⟨[7], 3, 0⟩])] ⟨5, []⟩ [1] [9] =
        ⟨(useExistingRecord 5 ⟨5, []⟩ [1] [9] [] [⟨[7], 3, 0⟩]).1,
         setRecord [([1], [⟨[7], 3, 0⟩])] [1]
           (useExistingRecord 5 ⟨5, []⟩ [1] [9] [] [⟨[7], 3, 0⟩]).2.1,
         (useExistingRecord 5 ⟨5, []⟩ [1] [9] [] [⟨[7], 3, 0⟩]).2.2, []⟩ ∧
      committedVersions
          (useExistingRecord 5 ⟨5, []⟩ [1] [9] [] [⟨[7], 3, 0⟩]).2.1 =
        committedVersions [⟨[7], 3, 0⟩] :=
  ⟨by decide,
   (c10_insert_never_replaces_record [([1], [⟨[7], 3, 0⟩])] ⟨5, []⟩ [1] [9]
      [⟨[7], 3, 0⟩] (by decide)).1,
   (c10_insert_never_replaces_record [([1], [⟨[7], 3, 0⟩])] ⟨5, []⟩ [1] [9]
      [⟨[7], 3, 0⟩] (by decide)).2.1⟩


/-- C4: after `WithinTransaction` finalizes transaction `T` with
`commit = false`, no version reachable in any key's chain carries
`valid_as_of = T.id` or `valid_before = T.id` — the abort path unlinks
every pending head of a key in `T`'s pending-write set — and the chains
of keys `T` never wrote are unchanged. The hypotheses express the
pre-abort state: only chain heads can carry `T`'s stamps, such a head is
pending and its key is in `T`'s pending-write set. -/
theorem c4_abort_unlinks_all_stamps (st : Store) (tx : Txn)
    (hTail : ∀ p ∈ st, ∀ r ∈ p.2.tail,
      r.validAsOfTransaction ≠ tx.id ∧ r.validBeforeTransaction ≠ tx.id)
    (hHead : ∀ p ∈ st, ∀ r ∈ p.2.take 1,
      (r.validAsOfTransaction = tx.id ∨ r.validBeforeTransaction = tx.id) →
        r.validAsOfTransaction = noSuchTransaction ∧ p.1 ∈ tx.pendingWrites) :
    (∀ k c, findRecord (finalizeAbort tx.pendingWrites st) k = some c →
      ∀ r ∈ c, r.validAsOfTransaction ≠ tx.id ∧ r.validBeforeTransaction ≠ tx.id) ∧
      ∀ k, k ∉ tx.pendingWrites →
        findRecord (finalizeAbort tx.pendingWrites st) k = findRecord st k := by
  constructor
  · intro k c hfind r hr
    by_cases hk : k ∈ tx.pendingWrites
    · cases hc : findRecord st k with
      | none =>
        rw [finalizeAbort_find_none tx.pendingWrites st k hc] at hfind
        cases hfind
      | some c0 =>
        obtain ⟨c', hfind', hsuf⟩ := finalizeAbort_find_mem tx.pendingWrites st k c0 hk hc
        rw [hfind'] at hfind
        cases hfind
        have hmem0 : (k, c0) ∈ st := findRecord_mem st k c0 hc
        have hrabort : r ∈ abortFinalizeChain c0 := hsuf.subset hr
        cases c0 with
        | nil => cases hrabort
        | cons r0 rest0 =>
          rw [abortFinalizeChain] at hrabort
          by_cases h0 : r0.validAsOfTransaction = noSuchTransaction
          · rw [if_pos h0] at hrabort
            exact hTail (k, r0 :: rest0) hmem0 r hrabort
          · rw [if_neg h0] at hrabort
            cases hrabort with
            | head =>
              by_contra hcon
              push_neg at hcon
              rcases Decidable.em (r.validAsOfTransaction = tx.id) with hva | hva
              · exact h0 (hHead (k, r :: rest0) hmem0 r (by simp) (Or.inl hva)).1
              · exact h0 (hHead (k, r :: rest0) hmem0 r (by simp) (Or.inr (hcon hva))).1
            | tail _ hh => exact hTail (k, r0 :: rest0) hmem0 r hh
    · rw [finalizeAbort_find_not_mem tx.pendingWrites st k hk] at hfind
      have hmem0 : (k, c) ∈ st := findRecord_mem st k c hfind
      cases c with
      | nil => cases hr
      | cons r0 rest0 =>
        cases hr with
        | head =>
          constructor
          · intro hva
            exact hk (hHead (k, r :: rest0) hmem0 r (by simp) (Or.inl hva)).2
          · intro hvb
            exact hk (hHead (k, r :: rest0) hmem0 r (by simp) (Or.inr hvb)).2
        | tail _ hh => exact hTail (k, r0 :: rest0) hmem0 r hh
  · intro k hk
    exact finalizeAbort_find_not_mem tx.pendingWrites st k hk

/-- C4 witness: transaction 3 aborts its pending tombstone over key
`[1]`; key `[2]` is untouched. -/
theorem c4_abort_unlinks_all_stamps_witness :
    (∀ p ∈ ([([1], [⟨[9], 0, 3⟩, ⟨[7], 1, 0⟩]), ([2], [⟨[5], 1, 0⟩])] : Store),
      ∀ r ∈ p.2.tail, r.validAsOfTransaction ≠ 3 ∧ r.validBeforeTransaction ≠ 3) ∧
      (∀ k c,
        findRecord
            (finalizeAbort [[1]]
              [([1], [⟨[9], 0, 3⟩, ⟨[7], 1, 0⟩]), ([2], [⟨[5], 1, 0⟩])]) k =
          some c →
        ∀ r ∈ c, r.validAsOfTransaction ≠ 3 ∧ r.validBeforeTransaction ≠ 3) := by
  have h := c4_abort_unlinks_all_stamps
    [([1], [⟨[9], 0, 3⟩, ⟨[7], 1, 0⟩]), ([2], [⟨[5], 1, 0⟩])] ⟨3, [[1]]⟩
    (by decide) (by decide)
  exact ⟨by decide, h.1⟩


/-
Helper lemmas about the pending-write set and `errors.Is` on the
sentinels, used to evaluate Upsert's control flow.
-/

theorem notePendingWriteAgainst_has (t : Txn) (k : Key) :
    (t.notePendingWriteAgainst k).hasPendingWriteAgainst k = true := by
  unfold Txn.notePendingWriteAgainst Txn.hasPendingWriteAgainst
  by_cases h : t.pendingWrites.contains k
  · rw [if_pos h]
    exact h
  · rw [if_neg h]
    simp

theorem notePendingWriteAgainst_id (t : Txn) (k : Key) :
    (t.notePendingWriteAgainst k).id = t.id := by
  unfold Txn.notePendingWriteAgainst
  by_cases h : t.pendingWrites.contains k
  · rw [if_pos h]
  · rw [if_neg h]

theorem hasPendingWriteAgainst_mem (t : Txn) (k : Key)
    (h : t.hasPendingWriteAgainst k = true) : k ∈ t.pendingWrites := by
  unfold Txn.hasPendingWriteAgainst at h
  simpa using h

theorem errorsIs_dne_sentinelDNE (k : Key) :
    errorsIs (.recordDoesNotExist k) .sentinelRecordDoesNotExist = true := rfl

theorem errorsIs_conflict_sentinelDNE (k : Key) :
    errorsIs (.transactionInConflict k) .sentinelRecordDoesNotExist = false := rfl

theorem errorsIs_corrupted_sentinelDNE (t : Nat) (k : Key) (vb : Nat) :
    errorsIs (.corruptedPendingVersion t k vb) .sentinelRecordDoesNotExist = false := rfl

theorem errorsIs_corrupted_sentinelExists (t : Nat) (k : Key) (vb : Nat) :
    errorsIs (.corruptedPendingVersion t k vb) .sentinelRecordExists = false := rfl

/-- A successful Upsert leaves the key's chain headed by this
transaction's pending version carrying `v`, with the key in the
pending-write set; the transaction ID is unchanged and the single-pass
run consumed no further acquisitions. -/
theorem upsertGo_ok_head (fuel : Nat) (st : Store) (tx : Txn) (k : Key) (v : Value)
    (u : OpResult) (h0 : 0 < tx.id)
    (hok : upsertGo (fuel + 1) [] st tx k v = some u) (hu : u.err = none) :
    (∃ rest, findRecord u.store k = some (⟨v, 0, 0⟩ :: rest)) ∧
      u.tx.hasPendingWriteAgainst k = true ∧ u.tx.id = tx.id ∧ u.ctx = [] := by
  have h0' : tx.id ≠ 0 := Nat.pos_iff_ne_zero.mp h0
  cases hf : findRecord st k with
  | none =>
    have hcomp : upsertGo (fuel + 1) [] st tx k v =
        some ⟨none, setRecord st k [⟨v, 0, 0⟩], tx.notePendingWriteAgainst k, []⟩ := by
      simp [upsertGo, txUpdate, txInsert, insertSlowPath, tryLockUntil,
        errorsIs_dne_sentinelDNE, hf, noSuchTransaction]
    rw [hcomp] at hok
    obtain rfl := (Option.some.injEq _ _).mp hok
    exact ⟨⟨[], findRecord_setRecord_self _ _ _⟩, notePendingWriteAgainst_has tx k,
      notePendingWriteAgainst_id tx k, rfl⟩
  | some c =>
    cases c with
    | nil =>
      have hcomp : upsertGo (fuel + 1) [] st tx k v =
          some ⟨none, setRecord st k [⟨v, 0, 0⟩], tx.notePendingWriteAgainst k, []⟩ := by
        simp [upsertGo, txUpdate, txInsert, useExistingRecord, tryLockUntil,
          errorsIs_dne_sentinelDNE, hf, noSuchTransaction]
      rw [hcomp] at hok
      obtain rfl := (Option.some.injEq _ _).mp hok
      exact ⟨⟨[], findRecord_setRecord_self _ _ _⟩, notePendingWriteAgainst_has tx k,
        notePendingWriteAgainst_id tx k, rfl⟩
    | cons r rest =>
      obtain ⟨rv, rva, rvb⟩ := r
      by_cases hva : rva = 0
      · subst hva
        by_cases hours : tx.hasPendingWriteAgainst k
        · by_cases hvb : rvb = 0
          · subst hvb
            -- Update overwrites the pending version in place.
            have hcomp : upsertGo (fuel + 1) [] st tx k v =
                some ⟨none, setRecord st k (⟨v, 0, 0⟩ :: rest), tx, []⟩ := by
              simp [upsertGo, txUpdate, tryLockUntil, hf, hours, noSuchTransaction]
            rw [hcomp] at hok
            obtain rfl := (Option.some.injEq _ _).mp hok
            exact ⟨⟨rest, findRecord_setRecord_self _ _ _⟩, hours, rfl, rfl⟩
          · by_cases hle : rvb ≤ tx.id
            · by_cases hres : rvb = tx.id
              · subst hres
                -- Update: our tombstone, RecordDoesNotExist; Insert resurrects.
                have hcomp : upsertGo (fuel + 1) [] st tx k v =
                    some ⟨none, setRecord st k (⟨v, 0, 0⟩ :: rest), tx, []⟩ := by
                  simp [upsertGo, txUpdate, txInsert, useExistingRecord, tryLockUntil,
                    errorsIs_dne_sentinelDNE, hf, hours, h0', noSuchTransaction]
                rw [hcomp] at hok
                obtain rfl := (Option.some.injEq _ _).mp hok
                exact ⟨⟨rest, findRecord_setRecord_self _ _ _⟩, hours, rfl, rfl⟩
              · -- Update: RecordDoesNotExist; Insert: corrupted pending version
                -- (the chain is written back unchanged).
                have hcomp : upsertGo (fuel + 1) [] st tx k v =
                    some ⟨some (.corruptedPendingVersion tx.id k rvb),
                      setRecord st k (⟨rv, 0, rvb⟩ :: rest), tx, []⟩ := by
                  simp [upsertGo, txUpdate, txInsert, useExistingRecord, tryLockUntil,
                    errorsIs_dne_sentinelDNE, errorsIs_corrupted_sentinelExists,
                    errorsIs_corrupted_sentinelDNE, hf, hours, hvb, hle, hres,
                    noSuchTransaction]
                rw [hcomp] at hok
                obtain rfl := (Option.some.injEq _ _).mp hok
                simp at hu
            · -- Update: corrupted pending version, returned unchanged.
              have hcomp : upsertGo (fuel + 1) [] st tx k v =
                  some ⟨some (.corruptedPendingVersion tx.id k rvb), st, tx, []⟩ := by
                simp [upsertGo, txUpdate, tryLockUntil,
                  errorsIs_corrupted_sentinelDNE, hf, hours, hvb, hle, noSuchTransaction]
              rw [hcomp] at hok
              obtain rfl := (Option.some.injEq _ _).mp hok
              simp at hu
        · -- Another transaction's pending head: conflict.
          have hcomp : upsertGo (fuel + 1) [] st tx k v =
              some ⟨some (.transactionInConflict k), st, tx, []⟩ := by
            simp [upsertGo, txUpdate, tryLockUntil,
              errorsIs_conflict_sentinelDNE, hf, hours, noSuchTransaction]
          rw [hcomp] at hok
          obtain rfl := (Option.some.injEq _ _).mp hok
          simp at hu
      · by_cases hlet : rva ≤ tx.id
        · by_cases hvb : rvb = 0
          · subst hvb
            -- Update prepends a pending version over the committed head.
            have hcomp : upsertGo (fuel + 1) [] st tx k v =
                some ⟨none, setRecord st k (⟨v, 0, 0⟩ :: ⟨rv, rva, 0⟩ :: rest),
                  tx.notePendingWriteAgainst k, []⟩ := by
              simp [upsertGo, txUpdate, tryLockUntil, hf, hva, hlet, noSuchTransaction]
            rw [hcomp] at hok
            obtain rfl := (Option.some.injEq _ _).mp hok
            exact ⟨⟨_, findRecord_setRecord_self _ _ _⟩, notePendingWriteAgainst_has tx k,
              notePendingWriteAgainst_id tx k, rfl⟩
          · by_cases hle : rvb ≤ tx.id
            · -- Update: tombstoned, RecordDoesNotExist; Insert prepends over it.
              have hnotlt : ¬tx.id < rva := Nat.not_lt.mpr hlet
              have hcomp : upsertGo (fuel + 1) [] st tx k v =
                  some ⟨none, setRecord st k (⟨v, 0, 0⟩ :: ⟨rv, rva, rvb⟩ :: rest),
                    tx.notePendingWriteAgainst k, []⟩ := by
                simp [upsertGo, txUpdate, txInsert, useExistingRecord, tryLockUntil,
                  errorsIs_dne_sentinelDNE, hf, hva, hlet, hvb, hle, hnotlt,
                  noSuchTransaction]
              rw [hcomp] at hok
              obtain rfl := (Option.some.injEq _ _).mp hok
              exact ⟨⟨_, findRecord_setRecord_self _ _ _⟩, notePendingWriteAgainst_has tx k,
                notePendingWriteAgainst_id tx k, rfl⟩
            · -- A later transaction superseded the head: conflict.
              have hcomp : upsertGo (fuel + 1) [] st tx k v =
                  some ⟨some (.transactionInConflict k), st, tx, []⟩ := by
                simp [upsertGo, txUpdate, tryLockUntil,
                  errorsIs_conflict_sentinelDNE, hf, hva, hlet, hvb, hle,
                  noSuchTransaction]
              rw [hcomp] at hok
              obtain rfl := (Option.some.injEq _ _).mp hok
              simp at hu
        · -- Head from a later transaction: conflict.
          have hcomp : upsertGo (fuel + 1) [] st tx k v =
              some ⟨some (.transactionInConflict k), st, tx, []⟩ := by
            simp [upsertGo, txUpdate, tryLockUntil,
              errorsIs_conflict_sentinelDNE, hf, hva, hlet, noSuchTransaction]
          rw [hcomp] at hok
          obtain rfl := (Option.some.injEq _ _).mp hok
          simp at hu


theorem getWalk_committed_head (t' : Nat) (ours : Bool) (tid : Nat) (v : Value)
    (rest : versionChain) (h1 : tid ≠ 0) (h2 : tid ≤ t') :
    getWalk t' ours (⟨v, tid, 0⟩ :: rest) = some v := by
  simp [getWalk, noSuchTransaction, h1, h2]

/-- C6: within a transaction, a second `Upsert(k, v)` right after a
successful one also succeeds and leaves the store and the transaction
observably unchanged, so `Get(k)` in the same transaction — and, after
commit finalization, in any later transaction — returns `v` either
way. -/
theorem c6_upsert_idempotent (fuel fuel2 t' : Nat) (st : Store) (tx : Txn)
    (k : Key) (v : Value) (u : OpResult)
    (h0 : 0 < tx.id) (ht' : tx.id < t')
    (hok : upsertGo (fuel + 1) [] st tx k v = some u) (hu : u.err = none) :
    upsertGo (fuel2 + 1) [] u.store u.tx k v = some ⟨none, u.store, u.tx, []⟩ ∧
      txGet [] u.store u.tx k = .ok v ∧
      txGet [] (finalizeCommit u.tx.id u.tx.pendingWrites u.store) ⟨t', []⟩ k =
        .ok v := by
  obtain ⟨⟨rest, hfind⟩, hpend, hid, -⟩ := upsertGo_ok_head fuel st tx k v u h0 hok hu
  have htid : u.tx.id ≠ 0 := by
    rw [hid]
    exact Nat.pos_iff_ne_zero.mp h0
  have htle : u.tx.id ≤ t' := by
    rw [hid]
    exact Nat.le_of_lt ht'
  have hset : setRecord u.store k (⟨v, 0, 0⟩ :: rest) = u.store :=
    setRecord_findRecord_self _ _ _ hfind
  refine ⟨?_, ?_, ?_⟩
  · simp [upsertGo, txUpdate, tryLockUntil, hfind, hpend, noSuchTransaction, hset]
  · simp [txGet, tryLockUntil, hfind, getWalk, hpend, noSuchTransaction]
  · have hmem : k ∈ u.tx.pendingWrites := hasPendingWriteAgainst_mem _ _ hpend
    cases rest with
    | nil =>
      have hfc : commitFinalizeChain u.tx.id [⟨v, 0, 0⟩] = [⟨v, u.tx.id, 0⟩] := by
        simp [commitFinalizeChain, noSuchTransaction]
      have hfix : commitFinalizeChain u.tx.id (commitFinalizeChain u.tx.id [⟨v, 0, 0⟩]) =
          commitFinalizeChain u.tx.id [⟨v, 0, 0⟩] := by
        rw [hfc]
        simp [commitFinalizeChain, noSuchTransaction, htid]
      have hfound := finalizeCommit_find_of_fixed u.tx.id u.tx.pendingWrites u.store k _
        hfind hfix
      rw [if_pos hmem, hfc] at hfound
      simp [txGet, tryLockUntil, hfound, getWalk_committed_head t' _ _ v _ htid htle]
    | cons p rest' =>
      by_cases hpvb : p.validBeforeTransaction = 0
      · have hfc : commitFinalizeChain u.tx.id (⟨v, 0, 0⟩ :: p :: rest') =
            ⟨v, u.tx.id, 0⟩ :: { p with validBeforeTransaction := u.tx.id } :: rest' := by
          simp [commitFinalizeChain, noSuchTransaction, hpvb]
        have hfix : commitFinalizeChain u.tx.id
              (commitFinalizeChain u.tx.id (⟨v, 0, 0⟩ :: p :: rest')) =
            commitFinalizeChain u.tx.id (⟨v, 0, 0⟩ :: p :: rest') := by
          rw [hfc]
          simp [commitFinalizeChain, noSuchTransaction, htid]
        have hfound := finalizeCommit_find_of_fixed u.tx.id u.tx.pendingWrites u.store k _
          hfind hfix
        rw [if_pos hmem, hfc] at hfound
        simp [txGet, tryLockUntil, hfound, getWalk_committed_head t' _ _ v _ htid htle]
      · have hfc : commitFinalizeChain u.tx.id (⟨v, 0, 0⟩ :: p :: rest') =
            ⟨v, u.tx.id, 0⟩ :: p :: rest' := by
          simp [commitFinalizeChain, noSuchTransaction, hpvb]
        have hfix : commitFinalizeChain u.tx.id
              (commitFinalizeChain u.tx.id (⟨v, 0, 0⟩ :: p :: rest')) =
            commitFinalizeChain u.tx.id (⟨v, 0, 0⟩ :: p :: rest') := by
          rw [hfc]
          simp [commitFinalizeChain, noSuchTransaction, htid]
        have hfound := finalizeCommit_find_of_fixed u.tx.id u.tx.pendingWrites u.store k _
          hfind hfix
        rw [if_pos hmem, hfc] at hfound
        simp [txGet, tryLockUntil, hfound, getWalk_committed_head t' _ _ v _ htid htle]

/-- C6 witness: two Upserts of `[9]` at key `[1]` by transaction 1 over
the empty store, then a Get by transaction 2 after commit. -/
theorem c6_upsert_idempotent_witness :
    upsertGo 1 [] [] ⟨1, []⟩ [1] [9] =
        some ⟨none, [([1], [⟨[9], 0, 0⟩])], ⟨1, [[1]]⟩, []⟩ ∧
      upsertGo 1 [] [([1], [⟨[9], 0, 0⟩])] ⟨1, [[1]]⟩ [1] [9] =
        some ⟨none, [([1], [⟨[9], 0, 0⟩])], ⟨1, [[1]]⟩, []⟩ ∧
      txGet [] [([1], [⟨[9], 0, 0⟩])] ⟨1, [[1]]⟩ [1] = .ok [9] ∧
      txGet [] (finalizeCommit 1 [[1]] [([1], [⟨[9], 0, 0⟩])]) ⟨2, []⟩ [1] =
        .ok [9] := by
  have h := c6_upsert_idempotent 0 0 2 [] ⟨1, []⟩ [1] [9]
    ⟨none, [([1], [⟨[9], 0, 0⟩])], ⟨1, [[1]]⟩, []⟩
    (by decide) (by decide) (by decide) (by decide)
  exact ⟨by decide, h.1, h.2.1, h.2.2⟩


/-- The part of the reachability invariant C3 needs from the pre-insert
chain: any version directly below a pending version is committed with
`valid_as_of ≤ t`. -/
def pendingNextCommitted (t : Nat) : versionChain → Prop
  | [] => True
  | [_] => True
  | r :: p :: rest =>
    (r.validAsOfTransaction = 0 →
      0 < p.validAsOfTransaction ∧ p.validAsOfTransaction ≤ t) ∧
      pendingNextCommitted t (p :: rest)

instance pendingNextCommittedDecidable (t : Nat) :
    (c : versionChain) → Decidable (pendingNextCommitted t c)
  | [] => isTrue trivial
  | [_] => isTrue trivial
  | _ :: p :: rest =>
    @instDecidableAnd _ _ _ (pendingNextCommittedDecidable t (p :: rest))

theorem pendingNextCommitted_tail (t : Nat) :
    ∀ {r : recordVersion} {rest : versionChain},
      pendingNextCommitted t (r :: rest) → pendingNextCommitted t rest
  | _, [], _ => trivial
  | _, _ :: _, h => h.2

/-- A successful `useExistingRecord` leaves the chain as skipped
later-transaction versions over this transaction's fresh pending
version, whose immediate predecessor (if any) is committed no later than
`t`; the key is (still) in the pending-write set. -/
theorem useExistingRecord_ok_chain (t : Nat) (tx : Txn) (k : Key) (v : Value) :
    ∀ (c : versionChain) (skippedRev : List recordVersion) (c' : versionChain)
      (tx' : Txn),
      (∀ x ∈ skippedRev, t < x.validAsOfTransaction) →
      pendingNextCommitted t c →
      useExistingRecord t tx k v skippedRev c = (none, c', tx') →
      ∃ pre rest, c' = pre ++ ⟨v, 0, 0⟩ :: rest ∧
        (∀ x ∈ pre, t < x.validAsOfTransaction) ∧
        (∀ p rest', rest = p :: rest' →
          0 < p.validAsOfTransaction ∧ p.validAsOfTransaction ≤ t) ∧
        tx'.hasPendingWriteAgainst k = true ∧ tx'.id = tx.id := by
  intro c
  induction c with
  | nil =>
    intro skippedRev c' tx' hsk hpnc hok
    unfold useExistingRecord at hok
    cases hs : skippedRev with
    | cons a l =>
      rw [hs] at hok
      simp at hok
    | nil =>
      rw [hs] at hok
      simp only [List.isEmpty_nil, Bool.not_true, Bool.false_eq_true,
        if_neg (by simp : ¬False)] at hok
      cases hok
      exact ⟨[], [], by simp [noSuchTransaction], by simp, by simp,
        notePendingWriteAgainst_has tx k, notePendingWriteAgainst_id tx k⟩
  | cons r rest ih =>
    intro skippedRev c' tx' hsk hpnc hok
    obtain ⟨rv, rva, rvb⟩ := r
    unfold useExistingRecord at hok
    by_cases hva : rva = 0
    · rw [if_pos (by simpa [noSuchTransaction] using hva)] at hok
      by_cases hours : tx.hasPendingWriteAgainst k
      · rw [if_neg (by simp [hours])] at hok
        by_cases hvb : rvb = noSuchTransaction
        · rw [if_pos hvb] at hok
          simp at hok
        · rw [if_neg hvb] at hok
          by_cases hres : rvb = t
          · rw [if_pos hres] at hok
            subst hva
            cases hok
            refine ⟨skippedRev.reverse, rest, by simp [noSuchTransaction],
              fun x hx => hsk x (List.mem_reverse.mp hx), ?_, hours, rfl⟩
            intro p rest' hrest
            subst hrest
            exact hpnc.1 rfl
          · rw [if_neg hres] at hok
            simp at hok
      · rw [if_pos (by simp [hours])] at hok
        simp at hok
    · rw [if_neg (by simpa [noSuchTransaction] using hva)] at hok
      by_cases hlt : t < rva
      · rw [if_pos hlt] at hok
        refine ih (⟨rv, rva, rvb⟩ :: skippedRev) c' tx' ?_
          (pendingNextCommitted_tail t hpnc) hok
        intro x hx
        cases hx with
        | head => exact hlt
        | tail _ hh => exact hsk x hh
      · rw [if_neg hlt] at hok
        by_cases hvb : rvb = noSuchTransaction
        · rw [if_pos hvb] at hok
          simp at hok
        · rw [if_neg hvb] at hok
          by_cases hle : rvb ≤ t
          · rw [if_pos hle] at hok
            cases hs : skippedRev with
            | cons a l =>
              rw [hs] at hok
              simp at hok
            | nil =>
              rw [hs] at hok
              simp only [List.isEmpty_nil, Bool.not_true, Bool.false_eq_true,
                if_neg (by simp : ¬False)] at hok
              cases hok
              refine ⟨[], ⟨rv, rva, rvb⟩ :: rest, by simp [noSuchTransaction],
                by simp, ?_, notePendingWriteAgainst_has tx k,
                notePendingWriteAgainst_id tx k⟩
              intro p rest' hrest
              injection hrest with h1 h2
              subst h1
              exact ⟨Nat.pos_of_ne_zero hva, Nat.not_lt.mp hlt⟩
          · rw [if_neg hle] at hok
            simp at hok


theorem txInsert_ok_chain (st : Store) (tx : Txn) (k : Key) (v : Value)
    (st1 : Store) (tx1 : Txn) (ctx1 : Ctx)
    (hb : ∀ c, findRecord st k = some c → pendingNextCommitted tx.id c)
    (hins : txInsert [] st tx k v = ⟨none, st1, tx1, ctx1⟩) :
    ∃ pre rest, findRecord st1 k = some (pre ++ ⟨v, 0, 0⟩ :: rest) ∧
      (∀ x ∈ pre, tx.id < x.validAsOfTransaction) ∧
      (∀ p rest', rest = p :: rest' →
        0 < p.validAsOfTransaction ∧ p.validAsOfTransaction ≤ tx.id) ∧
      tx1.hasPendingWriteAgainst k = true ∧ tx1.id = tx.id := by
  cases hf : findRecord st k with
  | none =>
    have hcomp : txInsert [] st tx k v =
        ⟨none, setRecord st k [⟨v, 0, 0⟩], tx.notePendingWriteAgainst k, []⟩ := by
      simp [txInsert, insertSlowPath, tryLockUntil, hf, noSuchTransaction]
    rw [hcomp] at hins
    injection hins with he hst htx hctx
    subst hst htx
    exact ⟨[], [], by simpa using findRecord_setRecord_self st k [⟨v, 0, 0⟩],
      by simp, by simp, notePendingWriteAgainst_has tx k,
      notePendingWriteAgainst_id tx k⟩
  | some c =>
    rcases hu : useExistingRecord tx.id tx k v [] c with ⟨e0, c0, tx0⟩
    have hcomp : txInsert [] st tx k v = ⟨e0, setRecord st k c0, tx0, []⟩ := by
      simp [txInsert, tryLockUntil, hf, hu]
    rw [hcomp] at hins
    injection hins with he hst htx hctx
    subst hst htx
    subst he
    obtain ⟨pre, rest, hc0, hpre, hrest, hpend, hid⟩ :=
      useExistingRecord_ok_chain tx.id tx k v c [] c0 _ (by simp) (hb c hf) hu
    subst hc0
    exact ⟨pre, rest, findRecord_setRecord_self _ _ _, hpre, hrest, hpend, hid⟩

theorem getWalk_bounded_head (t' : Nat) (ours : Bool) (r : recordVersion)
    (rest : versionChain) (h1 : r.validAsOfTransaction ≠ 0)
    (h2 : r.validAsOfTransaction ≤ t') (h3 : r.validBeforeTransaction ≠ 0)
    (h4 : r.validBeforeTransaction ≤ t') :
    getWalk t' ours (r :: rest) = none := by
  simp [getWalk, noSuchTransaction, h1, h2, h3, Nat.not_lt.mpr h4]

/-- C3: if a transaction performs `Insert(k, v)` and then `Delete(k)`
with `Delete` returning true, and the transaction commits, then `Get(k)`
in every later transaction returns `RecordDoesNotExist`. The hypothesis
on the pre-insert chain is the reachability invariant that a version
directly below a pending version is committed no later than this
transaction. -/
theorem c3_insert_delete_commit_get_absent (st : Store) (tx : Txn) (k : Key)
    (v : Value) (t' : Nat) (st1 st2 : Store) (tx1 tx2 : Txn) (ctx1 ctx2 : Ctx)
    (h0 : 0 < tx.id) (ht' : tx.id < t')
    (hb : ∀ c, findRecord st k = some c → pendingNextCommitted tx.id c)
    (hins : txInsert [] st tx k v = ⟨none, st1, tx1, ctx1⟩)
    (hdel : txDelete [] st1 tx1 k = ⟨none, true, st2, tx2, ctx2⟩) :
    txGet [] (finalizeCommit tx2.id tx2.pendingWrites st2) ⟨t', []⟩ k =
      .error (.recordDoesNotExist k) := by
  obtain ⟨pre, rest, hfind1, hpre, hrest, hpend1, hid1⟩ :=
    txInsert_ok_chain st tx k v st1 tx1 ctx1 hb hins
  cases pre with
  | cons p pre' =>
    exfalso
    have hp : tx.id < p.validAsOfTransaction := hpre p (by simp)
    have hpne : p.validAsOfTransaction ≠ 0 :=
      Nat.pos_iff_ne_zero.mp (Nat.lt_of_le_of_lt (Nat.zero_le _) hp)
    have hnotle : ¬p.validAsOfTransaction ≤ tx1.id := by
      rw [hid1]
      exact Nat.not_le.mpr hp
    have hfind1' : findRecord st1 k =
        some (p :: (pre' ++ ⟨v, 0, 0⟩ :: rest)) := by simpa using hfind1
    have hcomp : txDelete [] st1 tx1 k =
        ⟨some (.transactionInConflict k), false, st1, tx1, []⟩ := by
      simp [txDelete, tryLockUntil, hfind1', noSuchTransaction, hpne, hnotle]
    rw [hcomp] at hdel
    injection hdel with he hrem hst htx hctx
    exact Option.noConfusion he
  | nil =>
    simp only [List.nil_append] at hfind1
    have htidne : tx1.id ≠ 0 := by
      rw [hid1]
      exact Nat.pos_iff_ne_zero.mp h0
    have hcomp : txDelete [] st1 tx1 k =
        ⟨none, true, setRecord st1 k (⟨v, 0, tx1.id⟩ :: rest), tx1, []⟩ := by
      simp [txDelete, tryLockUntil, hfind1, hpend1, noSuchTransaction]
    rw [hcomp] at hdel
    injection hdel with he hrem hst htx hctx
    subst hst htx
    have hfind2 := findRecord_setRecord_self st1 k (⟨v, 0, tx1.id⟩ :: rest)
    have hmem : k ∈ tx1.pendingWrites := hasPendingWriteAgainst_mem _ _ hpend1
    have htle : tx1.id ≤ t' := by
      rw [hid1]
      exact Nat.le_of_lt ht'
    cases rest with
    | nil =>
      have hfc : commitFinalizeChain tx1.id [⟨v, 0, tx1.id⟩] =
          [⟨v, tx1.id, tx1.id⟩] := by
        simp [commitFinalizeChain, noSuchTransaction]
      have hfix : commitFinalizeChain tx1.id
            (commitFinalizeChain tx1.id [⟨v, 0, tx1.id⟩]) =
          commitFinalizeChain tx1.id [⟨v, 0, tx1.id⟩] := by
        rw [hfc]
        simp [commitFinalizeChain, noSuchTransaction, htidne]
      have hfound := finalizeCommit_find_of_fixed tx1.id tx1.pendingWrites _ k _
        hfind2 hfix
      rw [if_pos hmem, hfc] at hfound
      simp [txGet, tryLockUntil, hfound,
        getWalk_bounded_head t' _ ⟨v, tx1.id, tx1.id⟩ [] htidne htle htidne htle]
    | cons p rest' =>
      obtain ⟨hppos, hple⟩ := hrest p rest' rfl
      have hpne : p.validAsOfTransaction ≠ 0 := Nat.pos_iff_ne_zero.mp hppos
      have hplet' : p.validAsOfTransaction ≤ t' := by
        exact Nat.le_of_lt (Nat.lt_of_le_of_lt (hid1 ▸ hple) (hid1 ▸ ht'))
      by_cases hpvb : p.validBeforeTransaction = 0
      · have hfc : commitFinalizeChain tx1.id (⟨v, 0, tx1.id⟩ :: p :: rest') =
            { p with validBeforeTransaction := tx1.id } :: rest' := by
          simp [commitFinalizeChain, noSuchTransaction, hpvb, htidne]
        have hfix : commitFinalizeChain tx1.id
              (commitFinalizeChain tx1.id (⟨v, 0, tx1.id⟩ :: p :: rest')) =
            commitFinalizeChain tx1.id (⟨v, 0, tx1.id⟩ :: p :: rest') := by
          rw [hfc]
          simp [commitFinalizeChain, noSuchTransaction, hpne]
        have hfound := finalizeCommit_find_of_fixed tx1.id tx1.pendingWrites _ k _
          hfind2 hfix
        rw [if_pos hmem, hfc] at hfound
        simp [txGet, tryLockUntil, hfound,
          getWalk_bounded_head t' _ { p with validBeforeTransaction := tx1.id } rest'
            hpne hplet' htidne htle]
      · have hfc : commitFinalizeChain tx1.id (⟨v, 0, tx1.id⟩ :: p :: rest') =
            ⟨v, tx1.id, tx1.id⟩ :: p :: rest' := by
          simp [commitFinalizeChain, noSuchTransaction, hpvb]
        have hfix : commitFinalizeChain tx1.id
              (commitFinalizeChain tx1.id (⟨v, 0, tx1.id⟩ :: p :: rest')) =
            commitFinalizeChain tx1.id (⟨v, 0, tx1.id⟩ :: p :: rest') := by
          rw [hfc]
          simp [commitFinalizeChain, noSuchTransaction, htidne]
        have hfound := finalizeCommit_find_of_fixed tx1.id tx1.pendingWrites _ k _
          hfind2 hfix
        rw [if_pos hmem, hfc] at hfound
        simp [txGet, tryLockUntil, hfound,
          getWalk_bounded_head t' _ ⟨v, tx1.id, tx1.id⟩ (p :: rest')
            htidne htle htidne htle]

/-- C3 witness: transaction 2 inserts key `[1]` over a tombstoned prior
version, deletes it, and commits; transaction 3 cannot see the key. -/
theorem c3_insert_delete_commit_get_absent_witness :
    txInsert [] [([1], [⟨[7], 1, 1⟩])] ⟨2, []⟩ [1] [9] =
        ⟨none, [([1], [⟨[9], 0, 0⟩, ⟨[7], 1, 1⟩])], ⟨2, [[1]]⟩, []⟩ ∧
      txDelete [] [([1], [⟨[9], 0, 0⟩, ⟨[7], 1, 1⟩])] ⟨2, [[1]]⟩ [1] =
        ⟨none, true, [([1], [⟨[9], 0, 2⟩, ⟨[7], 1, 1⟩])], ⟨2, [[1]]⟩, []⟩ ∧
      txGet [] (finalizeCommit 2 [[1]] [([1], [⟨[9], 0, 2⟩, ⟨[7], 1, 1⟩])])
          ⟨3, []⟩ [1] =
        .error (.recordDoesNotExist [1]) :=
  ⟨by decide, by decide,
   c3_insert_delete_commit_get_absent [([1], [⟨[7], 1, 1⟩])] ⟨2, []⟩ [1] [9] 3
     [([1], [⟨[9], 0, 0⟩, ⟨[7], 1, 1⟩])] [([1], [⟨[9], 0, 2⟩, ⟨[7], 1, 1⟩])]
     ⟨2, [[1]]⟩ ⟨2, [[1]]⟩ [] []
     (by decide) (by decide)
     (by
       intro c hc
       injection hc with hc
       subst hc
       decide)
     (by decide) (by decide)⟩

end MVCC
